import Mathlib

set_option maxRecDepth 100000

/-!
Verification of the tab-note converter (TabNoteConverter.py).

Python strings are modelled as `List Char` (sequences of Unicode scalar
values); byte strings as `List Nat` (each entry a byte value).  Every
definition below is a direct shallow embedding of a function of the source
file, translated clause by clause.
-/

/-- The set of characters stripped by the Python `str.strip` family and
matched by the regex class for whitespace on `str` patterns: the Unicode
white-space code points recognised by CPython. -/
def pyIsSpace (c : Char) : Bool :=
  let n := c.toNat
  (9 ≤ n && n ≤ 13) || (28 ≤ n && n ≤ 31) || n == 32 || n == 0x85 ||
  n == 0xA0 || n == 0x1680 || (0x2000 ≤ n && n ≤ 0x200A) ||
  n == 0x2028 || n == 0x2029 || n == 0x202F || n == 0x205F || n == 0x3000

/-- Python `text.split(chr(10))`: split on each line feed, never empty. -/
def splitNl : List Char → List (List Char)
  | [] => [[]]
  | c :: rest =>
    if c = '\n' then [] :: splitNl rest
    else
      match splitNl rest with
      | l :: ls => (c :: l) :: ls
      | [] => [[c]]

/-- Python `sep.join(lines)` with the line-feed separator. -/
def joinNl : List (List Char) → List Char
  | [] => []
  | [l] => l
  | l :: ls => l ++ '\n' :: joinNl ls

/-- Python `line.rstrip()`: drop trailing whitespace. -/
def pyRstrip (l : List Char) : List Char :=
  (l.reverse.dropWhile pyIsSpace).reverse

/-- Python `line.lstrip()` restricted to whitespace (used via `strip`). -/
def pyLstrip (l : List Char) : List Char :=
  l.dropWhile pyIsSpace

/-- Python `line.strip()`: strip whitespace on both ends. -/
def pyStrip (l : List Char) : List Char :=
  pyRstrip (pyLstrip l)

/-- Python `stripped.lstrip(chr(9))`: drop leading tab characters. -/
def stripTabs (l : List Char) : List Char :=
  l.dropWhile (fun c => c == '\t')

/-- `len(line) - len(line.lstrip(chr(9)))`: the number of leading tabs. -/
def tabCount (l : List Char) : Nat :=
  (l.takeWhile (fun c => c == '\t')).length

/-- Concatenation of the images of `f`, in order (Python list building
inside a `for` loop where an iteration may append several items). -/
def cmap {α β : Type} (f : α → List β) : List α → List β
  | [] => []
  | a :: l => f a ++ cmap f l

/-- Maximum of a list of naturals (0 for the empty list). -/
def maxList (l : List Nat) : Nat :=
  l.foldr max 0

/-!
## Raw → Markdown renderer (`raw_to_markdown`)
-/

/-- The lines appended to `result` for one input line of `raw_to_markdown`:
blank lines are preserved, zero tabs give a heading, one tab a blank
separator plus a bold section header, two or more tabs a bullet indented
by two spaces per extra tab. -/
def mdOfLine (line : List Char) : List (List Char) :=
  let stripped := pyRstrip line
  if stripped = [] then [[]]
  else
    let tc := tabCount line
    let content := stripTabs stripped
    if tc = 0 then [("# ".toList) ++ content]
    else if tc = 1 then [[], ("**".toList) ++ content ++ ("**".toList)]
    else [List.replicate (2 * (tc - 2)) ' ' ++ ("* ".toList) ++ content]

/-- The replacement applied by the blank-line collapse to one maximal run
of `k` line feeds: two line feeds when `k ≥ 3`, the run itself otherwise
(and nothing for `k = 0`, where there is no run). -/
def nlRun (k : Nat) : List Char :=
  if 3 ≤ k then ['\n', '\n'] else List.replicate k '\n'

/-- Scanner form of Python `re.sub` of three-or-more line feeds by two:
`k` counts the line feeds read since the last other character; each
maximal run is emitted through `nlRun` when the run ends. -/
def collapseGo : Nat → List Char → List Char
  | k, [] => nlRun k
  | k, c :: t =>
    if c = '\n' then collapseGo (k + 1) t
    else nlRun k ++ c :: collapseGo 0 t

/-- `re.sub` of three-or-more consecutive line feeds by exactly two:
every maximal run of `k ≥ 3` line feeds is replaced by two, shorter runs
are kept as they are. -/
def collapseRuns (l : List Char) : List Char :=
  collapseGo 0 l

/-- `raw_to_markdown(text)`: classify each line by its leading-tab count,
emit the markdown lines, join, and collapse blank-line runs. -/
def raw_to_markdown (text : List Char) : List Char :=
  collapseRuns (joinNl (cmap mdOfLine (splitNl text)))

/-- `true` exactly when the list contains three consecutive line feeds
(hence, when it contains a run of three or more). -/
def containsNNN : List Char → Bool
  | c1 :: c2 :: c3 :: rest =>
    if c1 = '\n' ∧ c2 = '\n' ∧ c3 = '\n' then true
    else containsNNN (c2 :: c3 :: rest)
  | _ => false

/-!
## Markdown → HTML renderer (`markdown_to_html`)

The regular-expression tests of the source are translated into explicit
matchers.  Each matcher reproduces the regex semantics on line-feed-free
lines (the renderer only ever applies them to pieces of a `split` on line
feeds, where the dot and the anchors are unambiguous):

* heading `^(#{1,6})\s+(.+)$`: a run of 1 to 6 hash signs, at least one
  whitespace character, then a non-empty remainder.  As the hash run is
  maximal and `\s+` cannot start on a hash, the match is forced; when the
  remainder after the hashes is all whitespace the greedy `\s+` backtracks
  and `(.+)` receives the final whitespace character.
* bold `^\*\*(.+)\*\*$`: length at least 5, first two and last two
  characters are asterisks; the greedy group is the middle.
* bullet `^(\s*)\*\s+(.+)$`: maximal leading whitespace run, an asterisk,
  then whitespace and a non-empty remainder with the same backtracking
  rule as for headings.
-/

def headingMatch (s : List Char) : Option (Nat × List Char) :=
  let hs := s.takeWhile (fun c => c == '#')
  let k := hs.length
  if k = 0 ∨ 6 < k then none
  else
    let rest := s.drop k
    let sp := rest.takeWhile pyIsSpace
    let r := rest.dropWhile pyIsSpace
    if sp = [] then none
    else if r ≠ [] then some (k, r)
    else if 2 ≤ sp.length then some (k, [sp.getLast!]) else none

def boldMatch (s : List Char) : Option (List Char) :=
  if 5 ≤ s.length ∧ s.take 2 = ['*', '*'] ∧ s.drop (s.length - 2) = ['*', '*']
  then some ((s.drop 2).take (s.length - 4)) else none

def bulletMatch (line : List Char) : Option (Nat × List Char) :=
  let ws := line.takeWhile pyIsSpace
  match line.dropWhile pyIsSpace with
  | [] => none
  | c :: r2 =>
    if c = '*' then
      let sp := r2.takeWhile pyIsSpace
      let r3 := r2.dropWhile pyIsSpace
      if sp = [] then none
      else if r3 ≠ [] then some (ws.length, r3)
      else if 2 ≤ sp.length then some (ws.length, [sp.getLast!]) else none
    else none

/-- The branch taken by the body of the `for` loop of `markdown_to_html`
for one line, in the order the source tests them: blank, heading,
stand-alone bold, bullet, fall-through paragraph.  A bullet carries
`depth = indent_spaces / 2 + 1` and the matched text. -/
inductive MdKind where
  | blank : MdKind
  | heading : Nat → List Char → MdKind
  | boldp : List Char → MdKind
  | bullet : Nat → List Char → MdKind
  | para : List Char → MdKind
deriving DecidableEq, Repr

def mdClassify (line : List Char) : MdKind :=
  let stripped := pyStrip line
  if stripped = [] then .blank
  else
    match headingMatch stripped with
    | some (lvl, c) => .heading lvl c
    | none =>
      match boldMatch stripped with
      | some c => .boldp c
      | none =>
        match bulletMatch line with
        | some (ind, c) => .bullet (ind / 2 + 1) c
        | none => .para stripped

/-- `_escape_html`: successive `str.replace` of the ampersand, the angle
brackets and the double quote.  Because no replacement string contains a
character replaced by a later pass, the composition equals this single
character-wise map. -/
def escapeHtml (s : List Char) : List Char :=
  cmap (fun c =>
    if c = '&' then ("&amp;".toList)
    else if c = '<' then ("&lt;".toList)
    else if c = '>' then ("&gt;".toList)
    else if c = '"' then ("&quot;".toList)
    else [c]) s

/-- Leftmost-shortest search used by the non-greedy `re.sub` patterns of
`_inline_format`: split `l` as `inner ++ close-delimiter ++ after` with
`inner` non-empty and shortest, the delimiter being two asterisks. -/
def findBoldClose : List Char → Option (List Char × List Char)
  | [] => none
  | [_] => none
  | c :: rest =>
    if rest.take 2 = ['*', '*'] ∧ rest.length ≥ 2 then some ([c], rest.drop 2)
    else
      match findBoldClose rest with
      | some (inner, after) => some (c :: inner, after)
      | none => none

/-- `re.sub` of double-asterisk bold spans by `strong` elements:
leftmost-shortest matches, scanning resumes after each match. -/
def subBold : Nat → List Char → List Char
  | 0, l => l
  | fuel + 1, [] => (fun _ => []) fuel
  | fuel + 1, c :: rest =>
    if c = '*' ∧ rest.take 1 = ['*'] then
      match findBoldClose (rest.drop 1) with
      | some (inner, after) =>
        ("<strong>".toList) ++ inner ++ ("</strong>".toList) ++ subBold fuel after
      | none => c :: subBold fuel rest
    else c :: subBold fuel rest

/-- Closing search for the italic pattern: the shortest non-empty `inner`
followed by an asterisk that is not preceded and not followed by another
asterisk. -/
def findItalClose : List Char → Option (List Char × List Char)
  | [] => none
  | [_] => none
  | c :: rest =>
    if c ≠ '*' ∧ rest.take 1 = ['*'] ∧ (rest.drop 1).take 1 ≠ ['*'] then
      some ([c], rest.drop 1)
    else
      match findItalClose rest with
      | some (inner, after) => some (c :: inner, after)
      | none => none

/-- `re.sub` of the single-asterisk italic pattern (with its negative
look-around conditions) by `em` elements.  The `prev` argument carries the
character before the scan position of the original string, for the
leading look-behind. -/
def subItal : Nat → Option Char → List Char → List Char
  | 0, _, l => l
  | fuel + 1, _, [] => (fun _ => []) fuel
  | fuel + 1, prev, c :: rest =>
    if c = '*' ∧ prev ≠ some '*' ∧ rest.take 1 ≠ ['*'] then
      match findItalClose rest with
      | some (inner, after) =>
        ("<em>".toList) ++ inner ++ ("</em>".toList) ++ subItal fuel (some '*') after
      | none => c :: subItal fuel (some c) rest
    else c :: subItal fuel (some c) rest

/-- Closing search for the inline-code pattern: shortest non-empty `inner`
before a backtick. -/
def findTickClose : List Char → Option (List Char × List Char)
  | [] => none
  | [_] => none
  | c :: rest =>
    if rest.take 1 = [Char.ofNat 96] then some ([c], rest.drop 1)
    else
      match findTickClose rest with
      | some (inner, after) => some (c :: inner, after)
      | none => none

/-- `re.sub` of backtick-delimited spans by `code` elements. -/
def subTick : Nat → List Char → List Char
  | 0, l => l
  | fuel + 1, [] => (fun _ => []) fuel
  | fuel + 1, c :: rest =>
    if c = Char.ofNat 96 then
      match findTickClose rest with
      | some (inner, after) =>
        ("<code>".toList) ++ inner ++ ("</code>".toList) ++ subTick fuel after
      | none => c :: subTick fuel rest
    else c :: subTick fuel rest

/-- `_inline_format`: escape, then the bold, italic and inline-code
substitutions in that order. -/
def inlineFormat (s : List Char) : List Char :=
  let e := escapeHtml s
  let b := subBold e.length e
  let i := subItal b.length none b
  subTick i.length i

/-- The fragments appended to `html_parts`; `ulLiC` is the combined
open-list-open-item fragment carrying the item text, `ulLiBare` the same
fragment without text (intermediate levels of a multi-level jump), `sib`
the close-item-open-item fragment, `closeLiUl` the close-item-close-list
fragment. -/
inductive HtmlTok where
  | hHead : Nat → List Char → HtmlTok
  | hBoldP : List Char → HtmlTok
  | ulLiBare : HtmlTok
  | ulLiC : List Char → HtmlTok
  | sib : List Char → HtmlTok
  | closeLiUl : HtmlTok
  | hPara : List Char → HtmlTok
deriving DecidableEq, Repr

/-- Decimal digits of `n`, least significant first; the first argument is
fuel, always called with `fuel = n` so that it never runs out. -/
def digitsLE : Nat → Nat → List Nat
  | _, 0 => []
  | 0, _ + 1 => []
  | fuel + 1, n + 1 => (n + 1) % 10 :: digitsLE fuel ((n + 1) / 10)

/-- Decimal representation of a natural number, as Python `str` of an
`int` (and `format` without padding) produces it. -/
def decChars (n : Nat) : List Char :=
  if n = 0 then ['0']
  else ((digitsLE n n).reverse).map (fun d => Char.ofNat (48 + d))

/-- The string appended for one token of `markdown_to_html`. -/
def htmlTokStr : HtmlTok → List Char
  | .hHead lvl c =>
    ("<h".toList) ++ decChars lvl ++ (">".toList) ++ c ++
      ("</h".toList) ++ decChars lvl ++ (">".toList)
  | .hBoldP c => ("<p><strong>".toList) ++ c ++ ("</strong></p>".toList)
  | .ulLiBare => ("<ul><li>".toList)
  | .ulLiC c => ("<ul><li>".toList) ++ c
  | .sib c => ("</li><li>".toList) ++ c
  | .closeLiUl => ("</li></ul>".toList)
  | .hPara c => ("<p>".toList) ++ c ++ ("</p>".toList)

/-- One iteration of the `for` loop of `markdown_to_html`: from the open
list depth, produce the new depth and the appended fragments. -/
def mdStep (cur : Nat) (line : List Char) : Nat × List HtmlTok :=
  match mdClassify line with
  | .blank => (0, List.replicate cur .closeLiUl)
  | .heading lvl c =>
    (0, List.replicate cur .closeLiUl ++ [.hHead lvl (inlineFormat c)])
  | .boldp c =>
    (0, List.replicate cur .closeLiUl ++ [.hBoldP (escapeHtml c)])
  | .bullet d c =>
    if cur < d then
      (d, List.replicate (d - cur - 1) .ulLiBare ++ [.ulLiC (inlineFormat c)])
    else if d = cur then (d, [.sib (inlineFormat c)])
    else (d, List.replicate (cur - d) .closeLiUl ++ [.sib (inlineFormat c)])
  | .para c => (0, List.replicate cur .closeLiUl ++ [.hPara (inlineFormat c)])

/-- The loop of `markdown_to_html` over the lines, followed by the final
unwinding of the remaining open levels. -/
def mdLoop : Nat → List (List Char) → List HtmlTok
  | cur, [] => List.replicate cur .closeLiUl
  | cur, l :: ls =>
    let s := mdStep cur l
    s.2 ++ mdLoop s.1 ls

/-- The full `html_parts` list of `markdown_to_html md`. -/
def mdParts (md : List Char) : List HtmlTok :=
  mdLoop 0 (splitNl md)

/-- `markdown_to_html(md)`: the fragments joined by line feeds. -/
def markdown_to_html (md : List Char) : List Char :=
  joinNl ((mdParts md).map htmlTokStr)

/-!
## Raw → rich-message HTML renderer (`raw_to_slack_html`)

The strings appended to `parts` are modelled as tokens carrying the
varying pieces (indent numbers, escaped content); `sTokStr` renders each
token to the exact string of the source templates and the final output is
the concatenation, as in the `join` of the source.
-/

/-- `_slack_escape`: ampersand and angle brackets, no quote.  As in
`escapeHtml`, the successive `str.replace` calls equal one map. -/
def slackEscape (s : List Char) : List Char :=
  cmap (fun c =>
    if c = '&' then ("&amp;".toList)
    else if c = '<' then ("&lt;".toList)
    else if c = '>' then ("&gt;".toList)
    else [c]) s

/-- `str.upper()` on the content of a heading, modelled character-wise
with the ASCII upper-case map (the full Unicode case mapping of CPython
agrees with it on all inputs evaluated here). -/
def pyUpper (s : List Char) : List Char :=
  s.map Char.toUpper

/-- One appended fragment of `raw_to_slack_html`. -/
inductive STok where
  | meta : STok
  | divO : STok
  | divC : STok
  | bold : List Char → STok
  | br : STok
  | paraBreak : STok
  | ulO : Nat → STok
  | liO : Nat → List Char → STok
  | closeLiUl : STok
  | closeLi : STok
deriving DecidableEq, Repr

/-- The exact string of each fragment (`_SLACK_META`, `_SLACK_DIV_OPEN`,
`_SLACK_DIV_CLOSE`, `_SLACK_BOLD`, `_SLACK_BR`, `_SLACK_PARA_BREAK`,
`_slack_ul_open`, `_slack_li_open` plus the appended content, and the two
closing fragments). -/
def sTokStr : STok → List Char
  | .meta => ("<meta charset=".toList) ++ ['"'] ++ ("utf-8".toList) ++ ['"', '>']
  | .divO => ("<div class=".toList) ++ ['"'] ++ ("p-rich_text_section".toList) ++ ['"', '>']
  | .divC => ("</div>".toList)
  | .bold c =>
    ("<b data-stringify-type=".toList) ++ ['"'] ++ ("bold".toList) ++ ['"', '>'] ++
      c ++ ("</b>".toList)
  | .br => ("<br aria-hidden=".toList) ++ ['"'] ++ ("true".toList) ++ ['"', '>']
  | .paraBreak =>
    ("<span aria-label=".toList) ++ ['"'] ++ ("&nbsp;".toList) ++ ['"'] ++
      (" class=".toList) ++ ['"'] ++ ("c-mrkdwn__br".toList) ++ ['"'] ++
      (" data-stringify-type=".toList) ++ ['"'] ++ ("paragraph-break".toList) ++
      ['"', '>'] ++ ("</span>".toList)
  | .ulO n =>
    ("<ul data-stringify-type=".toList) ++ ['"'] ++ ("unordered-list".toList) ++
      ['"'] ++ (" data-list-tree=".toList) ++ ['"'] ++ ("true".toList) ++ ['"'] ++
      (" class=".toList) ++ ['"'] ++
      ("p-rich_text_list p-rich_text_list__bullet p-rich_text_list--nested".toList) ++
      ['"'] ++ (" data-indent=".toList) ++ ['"'] ++ decChars n ++ ['"'] ++
      (" data-border=".toList) ++ ['"', '0', '"', '>']
  | .liO n c =>
    ("<li data-stringify-indent=".toList) ++ ['"'] ++ decChars n ++ ['"'] ++
      (" data-stringify-border=".toList) ++ ['"', '0', '"', '>'] ++ c
  | .closeLiUl => ("</li></ul>".toList)
  | .closeLi => ("</li>".toList)

/-- The renderer state between lines: the stack of open list indents with
its top first (the Python list keeps the top last), whether the section
`div` is open, and the first-heading flag. -/
structure SlackSt where
  stack : List Nat
  divOpen : Bool
  firstHeading : Bool
deriving DecidableEq, Repr

/-- `_close_all_lists`: one close-item-close-list fragment per open level. -/
def closeAllToks (stack : List Nat) : List STok :=
  List.replicate stack.length .closeLiUl

/-- The deeper-bullet `while` loop: open one level at a time from
`top + 1` up to `d`; only the level equal to `d` receives the text.  The
first argument is the remaining gap `d - top`; the loop guard
`depth > list_stack[-1]` holds exactly while the gap is positive, and the
top rises by one per iteration, so the loop body runs `d - top` times. -/
def goDeeperAux (content : List Char) (d : Nat) :
    Nat → Nat → List Nat → List STok × List Nat
  | 0, _, stk => ([], stk)
  | gap + 1, top, stk =>
    let nd := top + 1
    let toks : List STok :=
      if nd = d then [.ulO nd, .liO d content] else [.ulO nd, .liO nd []]
    let r := goDeeperAux content d gap nd (nd :: stk)
    (toks ++ r.1, r.2)

def goDeeper (content : List Char) (d top : Nat) (stk : List Nat) :
    List STok × List Nat :=
  goDeeperAux content d (d - top) top stk

/-- The shallower-bullet `while` loop: pop and close while the top
exceeds `d` (the stack may become empty; nothing is pushed afterwards,
exactly as in the source). -/
def popShallower (d : Nat) : List Nat → List STok × List Nat
  | [] => ([], [])
  | t :: rest =>
    if d < t then
      let r := popShallower d rest
      (.closeLiUl :: r.1, r.2)
    else ([], t :: rest)

/-- One iteration of the `for` loop of `raw_to_slack_html`: the new state
and the fragments appended for this line. -/
def slackStep (st : SlackSt) (line : List Char) : SlackSt × List STok :=
  let stripped := pyRstrip line
  if stripped = [] then ({ st with stack := [] }, closeAllToks st.stack)
  else
    let tc := tabCount line
    let content := slackEscape (stripTabs stripped)
    if tc ≤ 1 then
      let closes := closeAllToks st.stack
      if tc = 0 then
        if ¬ st.divOpen ∧ ¬ st.firstHeading then
          ({ stack := [], divOpen := true, firstHeading := false },
            closes ++ [.divO, .paraBreak, .bold (pyUpper content)])
        else
          ({ stack := [], divOpen := true, firstHeading := false },
            closes ++ (if st.divOpen then [] else [STok.divO]) ++
              [.bold (pyUpper content)])
      else
        ({ stack := [], divOpen := false, firstHeading := st.firstHeading },
          closes ++ (if st.divOpen then [] else [STok.divO]) ++
            [.paraBreak, .bold content, .br, .divC])
    else
      let dClose : List STok := if st.divOpen then [.divC] else []
      let d := tc - 2
      match st.stack with
      | [] =>
        ({ stack := [d], divOpen := false, firstHeading := st.firstHeading },
          dClose ++ [.ulO d, .liO d content])
      | top :: rest =>
        if top < d then
          let r := goDeeper content d top (top :: rest)
          ({ stack := r.2, divOpen := false, firstHeading := st.firstHeading },
            dClose ++ r.1)
        else if d = top then
          ({ stack := top :: rest, divOpen := false, firstHeading := st.firstHeading },
            dClose ++ [.closeLi, .liO d content])
        else
          let r := popShallower d (top :: rest)
          ({ stack := r.2, divOpen := false, firstHeading := st.firstHeading },
            dClose ++ r.1 ++ [.closeLi, .liO d content])

/-- The loop over all lines followed by the final
`_close_all_lists(); _close_div()`. -/
def slackLoop : SlackSt → List (List Char) → List STok
  | st, [] => closeAllToks st.stack ++ (if st.divOpen then [STok.divC] else [])
  | st, l :: ls =>
    let s := slackStep st l
    s.2 ++ slackLoop s.1 ls

/-- The full `parts` list of `raw_to_slack_html`: the meta tag first,
then the loop from the initial state. -/
def slackParts (text : List Char) : List STok :=
  .meta :: slackLoop ⟨[], false, true⟩ (splitNl text)

/-- Concatenation of the rendered fragments (`join` with no separator). -/
def sJoin : List STok → List Char
  | [] => []
  | t :: ts => sTokStr t ++ sJoin ts

/-- `raw_to_slack_html(text)`. -/
def raw_to_slack_html (text : List Char) : List Char :=
  sJoin (slackParts text)

/-!
## CF_HTML payload builder (`_build_cf_html`)
-/

/-- `format` with `{:010d}`: the decimal digits, left-padded with zeros
to a minimum width of ten (wider numbers keep all their digits). -/
def pad10 (n : Nat) : List Char :=
  List.replicate (10 - (decChars n).length) '0' ++ decChars n

/-- UTF-8 encoding of one Unicode scalar value, as bytes. -/
def utf8Char (c : Char) : List Nat :=
  let n := c.toNat
  if n < 0x80 then [n]
  else if n < 0x800 then [0xC0 + n / 64, 0x80 + n % 64]
  else if n < 0x10000 then
    [0xE0 + n / 4096, 0x80 + n / 64 % 64, 0x80 + n % 64]
  else
    [0xF0 + n / 262144, 0x80 + n / 4096 % 64, 0x80 + n / 64 % 64, 0x80 + n % 64]

/-- Python `s.encode(utf-8)`. -/
def utf8 (s : List Char) : List Nat :=
  cmap utf8Char s

/-- The header template instantiated at the four offsets, in the order of
the `format` call of the source: `StartHTML`, `EndHTML`, `StartFragment`,
`EndFragment`. -/
def mkHeader (a b c d : Nat) : List Char :=
  ("Version:0.9\r\nStartHTML:".toList) ++ pad10 a ++
  ("\r\nEndHTML:".toList) ++ pad10 b ++
  ("\r\nStartFragment:".toList) ++ pad10 c ++
  ("\r\nEndFragment:".toList) ++ pad10 d ++ ("\r\n".toList)

def cfPre : List Char := ("<html><body>\r\n<!--StartFragment-->".toList)

def cfSuf : List Char := ("<!--EndFragment-->\r\n</body></html>".toList)

/-- `header_len`: the byte length of the header formatted with four zero
offsets. -/
def cfHeaderLen : Nat := (utf8 (mkHeader 0 0 0 0)).length

def cfStartHtml : Nat := cfHeaderLen

def cfStartFragment : Nat := cfStartHtml + (utf8 cfPre).length

def cfEndFragment (frag : List Char) : Nat :=
  cfStartFragment + (utf8 frag).length

def cfEndHtml (frag : List Char) : Nat :=
  cfEndFragment frag + (utf8 cfSuf).length

/-- `_build_cf_html(html_fragment)`: the instantiated header followed by
the fixed prefix, the fragment and the fixed suffix. -/
def build_cf_html (frag : List Char) : List Char :=
  mkHeader cfStartHtml (cfEndHtml frag) cfStartFragment (cfEndFragment frag) ++
    cfPre ++ frag ++ cfSuf

/-!
## Chromium custom-MIME pickle builder and its documented inverse
-/

/-- `struct.pack` of an unsigned 32-bit little-endian integer (the call
raises for values at or above `2 ^ 32`; every value packed here is far
below). -/
def pack32 (n : Nat) : List Nat :=
  [n % 256, n / 256 % 256, n / 65536 % 256, n / 16777216 % 256]

/-- Python `s.encode(utf-16-le)` of one scalar value. -/
def utf16leChar (c : Char) : List Nat :=
  let n := c.toNat
  if n < 0x10000 then [n % 256, n / 256]
  else
    let v := n - 0x10000
    let hi := 0xD800 + v / 1024
    let lo := 0xDC00 + v % 1024
    [hi % 256, hi / 256, lo % 256, lo / 256]

/-- Python `s.encode(utf-16-le)`. -/
def utf16le (s : List Char) : List Nat :=
  cmap utf16leChar s

/-- The number of UTF-16 code units of a string: one per scalar value in
the basic multilingual plane, two per supplementary-plane scalar. -/
def utf16Units (s : List Char) : Nat :=
  (s.map (fun c => if c.toNat < 0x10000 then 1 else 2)).sum

/-- `_pickle_write_string16`: a 32-bit count equal to `len(text)` (the
number of scalar values), the UTF-16LE bytes, and zero bytes up to the
next 4-byte boundary. -/
def pickleString16 (text : List Char) : List Nat :=
  let encoded := utf16le text
  pack32 text.length ++ encoded ++
    (if encoded.length % 4 ≠ 0 then List.replicate (4 - encoded.length % 4) 0 else [])

/-- `_build_chromium_custom_mime(entries)`: entry count and serialized
pairs, prefixed by the byte length of everything after the first field. -/
def build_chromium_custom_mime (entries : List (List Char × List Char)) : List Nat :=
  let payload :=
    pack32 entries.length ++
      cmap (fun e => pickleString16 e.1 ++ pickleString16 e.2) entries
  pack32 payload.length ++ payload

/-- Read a little-endian 32-bit integer (`struct.unpack_from`, which
raises when fewer than four bytes remain). -/
def read32 (data : List Nat) (off : Nat) : Option Nat :=
  if off + 4 ≤ data.length then
    some ((data.drop off).take 4 |>.reverse.foldl (fun a b => a * 256 + b) 0)
  else none

/-- Strict Python `bytes.decode(utf-16-le)`: pairs of bytes form code
units, surrogate pairs combine, and a trailing byte or a lone surrogate
raises (is `none`). -/
def utf16leDecode : List Nat → Option (List Char)
  | [] => some []
  | [_] => none
  | b0 :: b1 :: rest =>
    let u := b0 + 256 * b1
    if u < 0xD800 ∨ 0xE000 ≤ u then
      match utf16leDecode rest with
      | some cs => some (Char.ofNat u :: cs)
      | none => none
    else if u < 0xDC00 then
      match rest with
      | b2 :: b3 :: rest2 =>
        let u2 := b2 + 256 * b3
        if 0xDC00 ≤ u2 ∧ u2 < 0xE000 then
          match utf16leDecode rest2 with
          | some cs =>
            some (Char.ofNat (0x10000 + (u - 0xD800) * 1024 + (u2 - 0xDC00)) :: cs)
          | none => none
        else none
      | _ => none
    else none

/-- One string record of `decode_chromium_pickle`: read the count, take
`count * 2` bytes (a short slice is permitted, as in Python), decode
strictly, and step the offset over the data and its alignment padding. -/
def decodeString16 (data : List Nat) (off : Nat) :
    Option (List Char × Nat) :=
  match read32 data off with
  | none => none
  | some cc =>
    let bytes := (data.drop (off + 4)).take (cc * 2)
    match utf16leDecode bytes with
    | none => none
    | some s =>
      let off2 := off + 4 + cc * 2
      some (s, if cc * 2 % 4 ≠ 0 then off2 + (4 - cc * 2 % 4) else off2)

/-- The entry loop of `decode_chromium_pickle`. -/
def decodeEntries (data : List Nat) : Nat → Nat →
    Option (List (List Char × List Char))
  | _, 0 => some []
  | off, n + 1 =>
    match decodeString16 data off with
    | none => none
    | some (mime, off1) =>
      match decodeString16 data off1 with
      | none => none
      | some (content, off2) =>
        match decodeEntries data off2 n with
        | none => none
        | some es => some ((mime, content) :: es)

/-- `decode_chromium_pickle(data)`, returning the decoded entry list (the
source prints each entry as it goes; the payload-size field is read and
not otherwise used). -/
def decode_chromium_pickle (data : List Nat) :
    Option (List (List Char × List Char)) :=
  match read32 data 0 with
  | none => none
  | some _ =>
    match read32 data 4 with
    | none => none
    | some n => decodeEntries data 8 n

/-!
## Tag scanner used to state balance of the rendered rich-message output
-/

/-- The three element names whose balance the specification asserts. -/
inductive Tg where
  | ul : Tg
  | li : Tg
  | dv : Tg
deriving DecidableEq, Repr

/-- `true` when `pat` is an initial segment of `l`. -/
def matchesAt : List Char → List Char → Bool
  | [], _ => true
  | _ :: _, [] => false
  | p :: ps, c :: cs => p = c && matchesAt ps cs

/-- Scan a rendered string for the open and close tags of `ul`, `li` and
`div` elements (`true` marks an opening tag).  The fuel is the length of
the scanned list. -/
def tagScan : Nat → List Char → List (Bool × Tg)
  | 0, _ => []
  | _ + 1, [] => []
  | fuel + 1, l@(_ :: rest) =>
    if matchesAt ("</ul>".toList) l then (false, .ul) :: tagScan fuel (l.drop 5)
    else if matchesAt ("</li>".toList) l then (false, .li) :: tagScan fuel (l.drop 5)
    else if matchesAt ("</div>".toList) l then (false, .dv) :: tagScan fuel (l.drop 6)
    else if matchesAt ("<ul".toList) l then (true, .ul) :: tagScan fuel (l.drop 3)
    else if matchesAt ("<li".toList) l then (true, .li) :: tagScan fuel (l.drop 3)
    else if matchesAt ("<div".toList) l then (true, .dv) :: tagScan fuel (l.drop 4)
    else tagScan fuel rest

/-- Run the tag events against a stack: an open pushes, a close must
match the top.  `some []` means every element was closed properly. -/
def tagRun : List Tg → List (Bool × Tg) → Option (List Tg)
  | stk, [] => some stk
  | stk, (true, t) :: es => tagRun (t :: stk) es
  | stk, (false, t) :: es =>
    match stk with
    | [] => none
    | t' :: r => if t = t' then tagRun r es else none

/-- A rendered string is tag-balanced when every emitted close tag
matches the innermost open element and nothing stays open. -/
def tagBalanced (s : List Char) : Bool :=
  tagRun [] (tagScan s.length s) = some []

/-- `true` when the string is empty or consists of whitespace only. -/
def wsOnly (s : List Char) : Bool :=
  s.all pyIsSpace

/-!
## Claims
-/

/-- C1.  The pickle builder writes `len(text)` — the scalar-value count —
as the character count, while the UTF-16LE data of a supplementary-plane
character occupies two code units.  The documented inverse decoder
(`decode_chromium_pickle`) therefore mis-reads the record: on the entry
list `[(a, U+1F600)]` it reads only the high surrogate of the content and
fails, so decoding the built bytes does not give back the entries and the
claimed round-trip does not hold. -/
theorem c1_pickle_roundtrip_fails_eval :
    decode_chromium_pickle
        (build_chromium_custom_mime [(("a".toList), [Char.ofNat 0x1F600])]) ≠
      some [(("a".toList), [Char.ofNat 0x1F600])] := by decide

/-- C3.  On the input of a bullet with three leading tabs followed by a
bullet with two, the shallower-bullet branch empties the stack, then
still emits a close-item tag with no open item and opens an item that is
never tracked nor closed: the rendered output is not tag-balanced, so the
stack-balance postcondition fails on this finite input. -/
theorem c3_unbalanced_eval :
    tagBalanced (raw_to_slack_html ("\t\t\tA\n\t\tB".toList)) = false := by decide

/-- C4.  The string record for the single character U+1F600 carries a
count field of 1 — `len(text)`, the scalar-value count — although the
string has two UTF-16 code units; the claimed layout (count = UTF-16
code-unit count) is violated while the data and padding parts agree. -/
theorem c4_string16_count_eval :
    pickleString16 [Char.ofNat 0x1F600] =
        pack32 1 ++ utf16le [Char.ofNat 0x1F600] ∧
      utf16Units [Char.ofNat 0x1F600] = 2 ∧ (1 : Nat) ≠ 2 := by decide

/-- C8 counterexample.  On the scenario input the renderer returns the
claimed string *plus a trailing line feed* (the final empty line of the
input is preserved as an empty output line), so the output differs from
the claimed value. -/
theorem c8_scenario_counterexample :
    raw_to_markdown ("Title\n\tSection A\n\t\tFirst\n\t\tSecond\n".toList) ≠
      ("# Title\n\n**Section A**\n* First\n* Second".toList) := by decide

/-- C8 amended.  The scenario output is exactly the claimed string
followed by one line feed. -/
theorem c8_scenario_amended :
    raw_to_markdown ("Title\n\tSection A\n\t\tFirst\n\t\tSecond\n".toList) =
      ("# Title\n\n**Section A**\n* First\n* Second\n".toList) := by decide

/-- C9 counterexample.  On the empty input the rich-message renderer
returns the meta-charset tag, which is neither empty nor whitespace-only,
so the claim that all three renderers return an empty or whitespace-only
string fails. -/
theorem c9_empty_counterexample :
    wsOnly (raw_to_slack_html []) = false := by decide

/-- C9 amended.  On the empty input the markdown and markdown-to-HTML
renderers return the empty string and the rich-message renderer returns
exactly the meta-charset tag; all three are total functions, so none
raises. -/
theorem c9_empty_amended :
    raw_to_markdown [] = [] ∧ markdown_to_html [] = [] ∧
      raw_to_slack_html [] = sTokStr .meta := by decide

/-- C10.  For every input the rich-message output is the meta-charset tag
followed by the rest of the rendered fragments; in particular it is never
empty. -/
theorem c10_meta_head (text : List Char) :
    (∃ rest, raw_to_slack_html text =
        (("<meta charset=".toList) ++ ['"'] ++ ("utf-8".toList) ++ ['"', '>']) ++ rest) ∧
      raw_to_slack_html text ≠ [] := by
  constructor
  · exact ⟨sJoin (slackLoop ⟨[], false, true⟩ (splitNl text)), rfl⟩
  · intro h
    have h2 : (raw_to_slack_html text).length = 0 := by rw [h]; rfl
    rw [show raw_to_slack_html text =
      sTokStr .meta ++ sJoin (slackLoop ⟨[], false, true⟩ (splitNl text)) from rfl] at h2
    simp [sTokStr] at h2

/-- C5 counterexample.  On the input of two heading lines the second
heading is emitted while the block `div` is still open, and the code then
skips the paragraph-break marker: the whole fragment list contains no
paragraph-break at all, although a non-first heading was emitted, so the
claim that every non-first heading is preceded by the marker fails. -/
theorem c5_parabreak_counterexample :
    slackParts ("A\nB".toList) =
        [.meta, .divO, .bold ("A".toList), .bold ("B".toList), .divC] ∧
      STok.paraBreak ∉ slackParts ("A\nB".toList) := by decide

/-- C5 amended.  For every state and every heading line (non-blank,
zero leading tabs), the appended fragments are: the list closes, then the
block opener when no block is open, then — exactly when no block is open
and this is not the first heading — the paragraph-break marker, and then
the upper-cased bold text.  The marker thus immediately precedes the bold
text exactly when the heading starts a new block and is not the first. -/
theorem c5_heading_parabreak_iff (st : SlackSt) (line : List Char)
    (h1 : pyRstrip line ≠ []) (h2 : tabCount line = 0) :
    (slackStep st line).2 =
      closeAllToks st.stack ++
        (if st.divOpen then [] else [STok.divO]) ++
        (if ¬ st.divOpen ∧ ¬ st.firstHeading then [STok.paraBreak] else []) ++
        [STok.bold (pyUpper (slackEscape (stripTabs (pyRstrip line))))] := by
  unfold slackStep
  simp only [h1, h2, if_neg, Nat.zero_le, if_true]
  by_cases hd : st.divOpen <;> by_cases hf : st.firstHeading <;>
    simp [hd, hf]

/-- C5 witness: the amended statement at a concrete state and line.  The
state has no open block and a previously emitted heading, so the
paragraph-break marker is inserted between the opener and the bold text. -/
theorem c5_heading_parabreak_iff_witness :
    (pyRstrip (("X".toList)) ≠ [] ∧ tabCount (("X".toList)) = 0) ∧
      (slackStep ⟨[], false, false⟩ (("X".toList))).2 =
        closeAllToks ([] : List Nat) ++
          (if false then [] else [STok.divO]) ++
          (if ¬ false ∧ ¬ false then [STok.paraBreak] else []) ++
          [STok.bold (pyUpper (slackEscape (stripTabs (pyRstrip (("X".toList))))))] :=
  ⟨⟨by decide, by decide⟩,
    c5_heading_parabreak_iff ⟨[], false, false⟩ (("X".toList)) (by decide) (by decide)⟩

theorem containsNNN_cons (c : Char) (hc : c ≠ '\n') (l : List Char) :
    containsNNN (c :: l) = containsNNN l := by
  match l with
  | [] => rfl
  | [x] => rfl
  | x :: y :: r =>
    show (if c = '\n' ∧ x = '\n' ∧ y = '\n' then true else containsNNN (x :: y :: r)) = _
    rw [if_neg (by intro h; exact hc h.1)]

theorem containsNNN_nl_cons (l : List Char) (hl : containsNNN l = false)
    (hh : l.head? ≠ some '\n') : containsNNN ('\n' :: l) = false := by
  match l with
  | [] => rfl
  | [x] => rfl
  | x :: y :: r =>
    have hx : x ≠ '\n' := by intro h; exact hh (by simp [h])
    show (if '\n' = '\n' ∧ x = '\n' ∧ y = '\n' then true else containsNNN (x :: y :: r)) = false
    rw [if_neg (by intro h; exact hx h.2.1)]
    exact hl

theorem containsNNN_nl_nl_cons (l : List Char) (hl : containsNNN l = false)
    (hh : l.head? ≠ some '\n') : containsNNN ('\n' :: '\n' :: l) = false := by
  match l with
  | [] => rfl
  | x :: r =>
    have hx : x ≠ '\n' := by intro h; exact hh (by simp [h])
    show (if '\n' = '\n' ∧ '\n' = '\n' ∧ x = '\n' then true else containsNNN ('\n' :: x :: r)) = false
    rw [if_neg (by intro h; exact hx h.2.2)]
    match r with
    | [] => rfl
    | y :: r2 =>
      show (if '\n' = '\n' ∧ x = '\n' ∧ y = '\n' then true else containsNNN (x :: y :: r2)) = false
      rw [if_neg (by intro h; exact hx h.2.1)]
      exact hl

theorem containsNNN_nlRun (k : Nat) (l : List Char) (hl : containsNNN l = false)
    (hh : l.head? ≠ some '\n') : containsNNN (nlRun k ++ l) = false := by
  unfold nlRun
  split
  · exact containsNNN_nl_nl_cons l hl hh
  · match k with
    | 0 => simpa using hl
    | 1 => simpa using containsNNN_nl_cons l hl hh
    | 2 => simpa using containsNNN_nl_nl_cons l hl hh
    | n + 3 => omega

theorem collapseGo_no_triple : ∀ (l : List Char) (k : Nat),
    containsNNN (collapseGo k l) = false
  | [], k => by
    have := containsNNN_nlRun k [] rfl (by simp)
    simpa [collapseGo] using this
  | c :: t, k => by
    by_cases hc : c = '\n'
    · simp only [collapseGo, hc, if_true]
      exact collapseGo_no_triple t (k + 1)
    · simp only [collapseGo, hc, if_false, reduceIte]
      refine containsNNN_nlRun k _ ?_ (by simp [hc])
      rw [containsNNN_cons c hc]
      exact collapseGo_no_triple t 0

/-- C7.  The markdown renderer ends with the blank-line collapse, whose
output never contains three consecutive line feeds: between any two
non-empty lines at most one blank line remains. -/
theorem c7_no_triple_newline (text : List Char) :
    containsNNN (raw_to_markdown text) = false :=
  collapseGo_no_triple _ 0

theorem cmap_append {α β : Type} (f : α → List β) (a b : List α) :
    cmap f (a ++ b) = cmap f a ++ cmap f b := by
  induction a with
  | nil => rfl
  | cons x xs ih => simp [cmap, ih]

theorem char_toNat_ofNat (m : Nat) (h : m < 55296) : (Char.ofNat m).toNat = m := by
  have hv : Nat.isValidChar m := Or.inl h
  simp only [Char.ofNat, Char.ofNatAux, hv, dite_true, dif_pos]
  rfl

theorem utf8Char_ascii (c : Char) (h : c.toNat < 128) : utf8Char c = [c.toNat] := by
  simp only [utf8Char]
  rw [if_pos h]

theorem utf8_ascii (l : List Char) (h : ∀ c ∈ l, c.toNat < 128) :
    utf8 l = l.map Char.toNat := by
  induction l with
  | nil => rfl
  | cons c cs ih =>
    have h1 := utf8Char_ascii c (h c (by simp))
    have h2 := ih (fun x hx => h x (by simp [hx]))
    show utf8Char c ++ utf8 cs = _
    rw [h1, h2, List.map_cons]
    rfl

theorem utf8_length_ascii (l : List Char) (h : ∀ c ∈ l, c.toNat < 128) :
    (utf8 l).length = l.length := by
  rw [utf8_ascii l h, List.length_map]

theorem digitsLE_len_le (fuel n k : Nat) (h : n < 10 ^ k) :
    (digitsLE fuel n).length ≤ k := by
  induction fuel generalizing n k with
  | zero =>
    match n with
    | 0 => simp [digitsLE]
    | _ + 1 => simp [digitsLE]
  | succ f ih =>
    match n with
    | 0 => simp [digitsLE]
    | m + 1 =>
      match k with
      | 0 => omega
      | j + 1 =>
        have hd : (m + 1) / 10 < 10 ^ j := by
          rw [Nat.div_lt_iff_lt_mul (by omega)]
          calc m + 1 < 10 ^ (j + 1) := h
            _ = 10 ^ j * 10 := by ring
        simpa [digitsLE] using ih ((m + 1) / 10) j hd

theorem digitsLE_len_ge (fuel n k : Nat) (h : 10 ^ k ≤ n) (hf : n ≤ fuel) :
    k + 1 ≤ (digitsLE fuel n).length := by
  induction fuel generalizing n k with
  | zero =>
    have : 0 < 10 ^ k := Nat.pos_pow_of_pos k (by omega)
    omega
  | succ f ih =>
    match n with
    | 0 =>
      have : 0 < 10 ^ k := Nat.pos_pow_of_pos k (by omega)
      omega
    | m + 1 =>
      match k with
      | 0 => simp [digitsLE]
      | j + 1 =>
        have h1 : 10 ^ j ≤ (m + 1) / 10 := by
          rw [Nat.le_div_iff_mul_le (by omega)]
          calc 10 ^ j * 10 = 10 ^ (j + 1) := by ring
            _ ≤ m + 1 := h
        have h2 : (m + 1) / 10 ≤ f := by
          have := Nat.div_lt_self (Nat.succ_pos m) (show 1 < 10 by omega)
          omega
        simpa [digitsLE] using ih ((m + 1) / 10) j h1 h2

theorem digitsLE_digits_lt (fuel n : Nat) : ∀ d ∈ digitsLE fuel n, d < 10 := by
  induction fuel generalizing n with
  | zero =>
    match n with
    | 0 => simp [digitsLE]
    | _ + 1 => simp [digitsLE]
  | succ f ih =>
    match n with
    | 0 => simp [digitsLE]
    | m + 1 =>
      intro d hd
      simp only [digitsLE, List.mem_cons] at hd
      rcases hd with h1 | h2
      · omega
      · exact ih ((m + 1) / 10) d h2

theorem decChars_ascii (n : Nat) : ∀ c ∈ decChars n, c.toNat < 128 := by
  intro c hc
  unfold decChars at hc
  split at hc
  · simp at hc
    subst hc
    decide
  · simp only [List.mem_map, List.mem_reverse] at hc
    obtain ⟨d, hd, rfl⟩ := hc
    have h10 : d < 10 := digitsLE_digits_lt n n d hd
    rw [char_toNat_ofNat (48 + d) (by omega)]
    omega

theorem decChars_len_le (n : Nat) (h : n < 10 ^ 10) : (decChars n).length ≤ 10 := by
  unfold decChars
  split
  · simp
  · simpa using digitsLE_len_le n n 10 h

theorem pad10_length (n : Nat) (h : n < 10 ^ 10) : (pad10 n).length = 10 := by
  have := decChars_len_le n h
  simp only [pad10, List.length_append, List.length_replicate]
  omega

theorem pad10_ascii (n : Nat) : ∀ c ∈ pad10 n, c.toNat < 128 := by
  intro c hc
  simp only [pad10, List.mem_append, List.mem_replicate] at hc
  rcases hc with ⟨-, rfl⟩ | h
  · decide
  · exact decChars_ascii n c h

theorem mkHeader_ascii (a b c d : Nat) : ∀ x ∈ mkHeader a b c d, x.toNat < 128 := by
  have app : ∀ (u v : List Char), (∀ y ∈ u, y.toNat < 128) →
      (∀ y ∈ v, y.toNat < 128) → ∀ y ∈ u ++ v, y.toNat < 128 := by
    intro u v hu hv y hy
    rcases List.mem_append.mp hy with h | h
    · exact hu y h
    · exact hv y h
  unfold mkHeader
  exact app _ _ (app _ _ (app _ _ (app _ _ (app _ _ (app _ _ (app _ _ (app _ _
    (by decide) (pad10_ascii a)) (by decide)) (pad10_ascii b)) (by decide))
    (pad10_ascii c)) (by decide)) (pad10_ascii d)) (by decide)

theorem mkHeader_length (a b c d : Nat) (ha : a < 10 ^ 10) (hb : b < 10 ^ 10)
    (hc : c < 10 ^ 10) (hd : d < 10 ^ 10) : (mkHeader a b c d).length = 105 := by
  simp only [mkHeader, List.length_append, pad10_length a ha, pad10_length b hb,
    pad10_length c hc, pad10_length d hd]
  rfl

/-- C2 amended.  As long as the four offsets fit in the fixed ten-digit
header fields — that is, the fragment is shorter than about `10 ^ 10`
bytes, so `EndHTML < 10 ^ 10` — the byte offsets written into the header
are exact: slicing the UTF-8 bytes of the built payload from
`StartFragment` (inclusive) to `EndFragment` (exclusive) returns exactly
the UTF-8 bytes of the fragment.  (For larger fragments the zero-padded
fields widen beyond ten digits, the header grows past the precomputed
`header_len`, and the offsets are wrong; see the counterexample.) -/
theorem c2_offsets_correct_bounded (frag : List Char)
    (h : cfEndHtml frag < 10 ^ 10) :
    ((utf8 (build_cf_html frag)).drop cfStartFragment).take
        (cfEndFragment frag - cfStartFragment) = utf8 frag := by
  have hd : cfEndFragment frag < 10 ^ 10 := by
    have : cfEndFragment frag ≤ cfEndHtml frag := Nat.le_add_right _ _
    omega
  have hhdr : (utf8 (mkHeader cfStartHtml (cfEndHtml frag) cfStartFragment
      (cfEndFragment frag))).length = 105 := by
    rw [utf8_length_ascii _ (mkHeader_ascii _ _ _ _)]
    exact mkHeader_length _ _ _ _ (by decide) h (by decide) hd
  have hsplit : utf8 (build_cf_html frag) =
      (utf8 (mkHeader cfStartHtml (cfEndHtml frag) cfStartFragment
        (cfEndFragment frag)) ++ utf8 cfPre) ++ (utf8 frag ++ utf8 cfSuf) := by
    unfold build_cf_html utf8
    rw [cmap_append, cmap_append, cmap_append]
    simp [List.append_assoc]
  have hlen : (utf8 (mkHeader cfStartHtml (cfEndHtml frag) cfStartFragment
      (cfEndFragment frag)) ++ utf8 cfPre).length = cfStartFragment := by
    simp only [List.length_append, hhdr]
    decide
  have key : ∀ (A B : List Nat), A.length = cfStartFragment →
      (A ++ B).drop cfStartFragment = B := by
    intro A B hA
    rw [← hA, List.drop_left]
  have hsub : cfEndFragment frag - cfStartFragment = (utf8 frag).length := by
    unfold cfEndFragment
    omega
  rw [hsplit, key _ _ hlen, hsub, List.take_left]

/-- C2 witness: the amended statement at a fragment containing a
two-byte UTF-8 character. -/
theorem c2_offsets_correct_bounded_witness :
    cfEndHtml (("<b>é</b>".toList)) < 10 ^ 10 ∧
      ((utf8 (build_cf_html (("<b>é</b>".toList)))).drop cfStartFragment).take
          (cfEndFragment (("<b>é</b>".toList)) - cfStartFragment) =
        utf8 (("<b>é</b>".toList)) :=
  ⟨by decide, c2_offsets_correct_bounded (("<b>é</b>".toList)) (by decide)⟩

theorem utf8_replicate_a (n : Nat) :
    utf8 (List.replicate n 'a') = List.replicate n 97 := by
  induction n with
  | zero => rfl
  | succ m ih =>
    rw [List.replicate_succ, List.replicate_succ]
    show utf8Char 'a' ++ utf8 (List.replicate m 'a') = _
    rw [ih]
    rfl


theorem decChars_len_eq11 (n : Nat) (h1 : 10 ^ 10 ≤ n) (h2 : n < 10 ^ 11) :
    (decChars n).length = 11 := by
  have hn : n ≠ 0 := by
    have : 0 < 10 ^ 10 := Nat.pos_pow_of_pos 10 (by omega)
    omega
  have hle : (digitsLE n n).length ≤ 11 := digitsLE_len_le n n 11 h2
  have hge : 11 ≤ (digitsLE n n).length := digitsLE_len_ge n n 10 h1 (le_refl n)
  unfold decChars
  rw [if_neg hn]
  simp only [List.length_map, List.length_reverse]
  omega

theorem pad10_length11 (n : Nat) (h1 : 10 ^ 10 ≤ n) (h2 : n < 10 ^ 11) :
    (pad10 n).length = 11 := by
  have := decChars_len_eq11 n h1 h2
  simp only [pad10, List.length_append, List.length_replicate]
  omega

theorem utf8_append (a b : List Char) : utf8 (a ++ b) = utf8 a ++ utf8 b :=
  cmap_append utf8Char a b

theorem cfEndFragment_eq (x : List Char) :
    cfEndFragment x = cfStartFragment + (utf8 x).length := rfl

theorem cfEndHtml_eq (x : List Char) :
    cfEndHtml x = cfEndFragment x + (utf8 cfSuf).length := rfl

theorem build_cf_html_eq (x : List Char) :
    build_cf_html x =
      mkHeader cfStartHtml (cfEndHtml x) cfStartFragment (cfEndFragment x) ++
        cfPre ++ x ++ cfSuf := rfl

/-- C2 counterexample.  The ten-digit zero-padded header fields are not
fixed-width at or above `10 ^ 10`: for an all-ASCII fragment of exactly
`10 ^ 10` bytes the `EndHTML` and `EndFragment` values need eleven
digits, the real header is two bytes longer than the `header_len`
computed with zero placeholders, and the slice taken at the written
offsets starts two bytes early — inside the fixed prefix — so its first
byte is a hyphen, not the first byte of the fragment. -/
theorem c2_offsets_counterexample :
    ((utf8 (build_cf_html (List.replicate (10 ^ 10) 'a'))).drop cfStartFragment).take
        (cfEndFragment (List.replicate (10 ^ 10) 'a') - cfStartFragment) ≠
      utf8 (List.replicate (10 ^ 10) 'a') := by
  have h139 : cfStartFragment = 139 := by decide
  have h105 : cfStartHtml = 105 := by decide
  have hsuf : (utf8 cfSuf).length = 34 := by decide
  have hlenf : (utf8 (List.replicate (10 ^ 10) 'a')).length = 10 ^ 10 := by
    rw [utf8_replicate_a, List.length_replicate]
  have hEndF : cfEndFragment (List.replicate (10 ^ 10) 'a') = 10000000139 := by
    rw [cfEndFragment_eq, hlenf, h139]
    norm_num
  have hEndH : cfEndHtml (List.replicate (10 ^ 10) 'a') = 10000000173 := by
    rw [cfEndHtml_eq, hEndF, hsuf]
  have hu8len : (utf8 (mkHeader 105 10000000173 139 10000000139)).length = 107 := by
    rw [utf8_length_ascii _ (mkHeader_ascii _ _ _ _)]
    simp only [mkHeader, List.length_append]
    rw [pad10_length 105 (by norm_num), pad10_length 139 (by norm_num),
      pad10_length11 10000000173 (by norm_num) (by norm_num),
      pad10_length11 10000000139 (by norm_num) (by norm_num)]
    decide
  have hsplit : utf8 (build_cf_html (List.replicate (10 ^ 10) 'a')) =
      (utf8 (mkHeader 105 10000000173 139 10000000139) ++ utf8 cfPre) ++
        (utf8 (List.replicate (10 ^ 10) 'a') ++ utf8 cfSuf) := by
    rw [build_cf_html_eq, utf8_append, utf8_append, utf8_append,
      hEndF, hEndH, h139, h105, List.append_assoc]
  have hAlen : ((utf8 (mkHeader 105 10000000173 139 10000000139)) ++
      utf8 cfPre).length = 141 := by
    rw [List.length_append, hu8len]
    decide
  have hdropA : ((utf8 (mkHeader 105 10000000173 139 10000000139)) ++
      utf8 cfPre).drop 139 = [45, 62] := by
    rw [List.drop_append_eq_append_drop,
      List.drop_of_length_le (by rw [hu8len]; omega), hu8len]
    decide
  intro heq
  rw [hsplit, hEndF, h139, List.drop_append_eq_append_drop, hdropA, hAlen,
    show (139 : Nat) - 141 = 0 from rfl, List.drop_zero] at heq
  rw [show ([45, 62] : List Nat) ++
      (utf8 (List.replicate (10 ^ 10) 'a') ++ utf8 cfSuf) =
      45 :: 62 :: (utf8 (List.replicate (10 ^ 10) 'a') ++ utf8 cfSuf) from rfl,
    show (10000000139 : Nat) - 139 = (10 ^ 10 - 2) + 1 + 1 from by norm_num,
    List.take_succ_cons, List.take_succ_cons] at heq
  rw [utf8_replicate_a,
    show (10 ^ 10 : Nat) = (10 ^ 10 - 1) + 1 from by norm_num,
    List.replicate_succ] at heq
  simp only [List.cons.injEq] at heq
  exact absurd heq.1 (by decide)

/-!
## Claim C6: nesting depth through the two-renderer composition
-/

/-- The change of `current_depth` effected by one emitted fragment of
`markdown_to_html`: the open-list-open-item fragments raise the depth by
one, the close-item-close-list fragment lowers it by one, everything
else leaves it unchanged. -/
def applyTok (cur : Nat) : HtmlTok → Nat
  | .ulLiBare => cur + 1
  | .ulLiC _ => cur + 1
  | .closeLiUl => cur - 1
  | _ => cur

/-- The running maximum of the list-nesting depth over a fragment
stream, starting from depth `cur`. -/
def maxUlFrom (cur : Nat) : List HtmlTok → Nat
  | [] => cur
  | t :: ts => max cur (maxUlFrom (applyTok cur t) ts)

/-- The nesting depth of the deepest list element of a fragment stream
(0 when no list is opened). -/
def maxUl (toks : List HtmlTok) : Nat :=
  maxUlFrom 0 toks

/-- The list depth contributed by one line of `markdown_to_html`: the
depth of a bullet line, 0 for every other classification. -/
def effDepth (line : List Char) : Nat :=
  match mdClassify line with
  | .bullet d _ => d
  | _ => 0

theorem le_maxUlFrom (ts : List HtmlTok) : ∀ cur, cur ≤ maxUlFrom cur ts := by
  induction ts with
  | nil => intro cur; exact le_refl _
  | cons t ts ih => intro cur; exact le_max_left _ _

theorem maxUlFrom_closes (k : Nat) : ∀ (cur : Nat) (ts : List HtmlTok),
    maxUlFrom cur (List.replicate k .closeLiUl ++ ts) =
      max cur (maxUlFrom (cur - k) ts) := by
  induction k with
  | zero =>
    intro cur ts
    simp only [List.replicate, List.nil_append, Nat.sub_zero]
    exact (max_eq_right (le_maxUlFrom ts cur)).symm
  | succ k ih =>
    intro cur ts
    rw [List.replicate_succ, List.cons_append]
    show max cur (maxUlFrom (cur - 1) (List.replicate k .closeLiUl ++ ts)) = _
    rw [ih (cur - 1) ts, show cur - 1 - k = cur - (k + 1) from by omega]
    omega

theorem maxUlFrom_opens (m : Nat) : ∀ (cur : Nat) (x : List Char) (ts : List HtmlTok),
    maxUlFrom cur (List.replicate m .ulLiBare ++ .ulLiC x :: ts) =
      maxUlFrom (cur + m + 1) ts := by
  induction m with
  | zero =>
    intro cur x ts
    simp only [List.replicate, List.nil_append, Nat.add_zero]
    show max cur (maxUlFrom (cur + 1) ts) = maxUlFrom (cur + 1) ts
    have := le_maxUlFrom ts (cur + 1)
    omega
  | succ m ih =>
    intro cur x ts
    rw [List.replicate_succ, List.cons_append]
    show max cur (maxUlFrom (cur + 1) (List.replicate m .ulLiBare ++ .ulLiC x :: ts)) = _
    rw [ih (cur + 1) x ts,
      show cur + 1 + m + 1 = cur + (m + 1) + 1 from by omega]
    have := le_maxUlFrom ts (cur + (m + 1) + 1)
    omega

/-- The running maximum of the depth over the whole loop of
`markdown_to_html` from state `cur` equals the larger of `cur` and the
largest per-line depth: list levels are opened one bullet at a time, up
to exactly the depth of that bullet. -/
theorem maxUlFrom_mdLoop : ∀ (L : List (List Char)) (cur : Nat),
    maxUlFrom cur (mdLoop cur L) = max cur (maxList (L.map effDepth)) := by
  intro L
  induction L with
  | nil =>
    intro cur
    show maxUlFrom cur (List.replicate cur .closeLiUl) = _
    have h := maxUlFrom_closes cur cur ([] : List HtmlTok)
    rw [List.append_nil] at h
    rw [h, Nat.sub_self]
    show max cur 0 = max cur (maxList [])
    rfl
  | cons l ls ih =>
    intro cur
    show maxUlFrom cur ((mdStep cur l).2 ++ mdLoop (mdStep cur l).1 ls) = _
    rw [List.map_cons,
      show maxList (effDepth l :: ls.map effDepth) =
        max (effDepth l) (maxList (ls.map effDepth)) from rfl]
    rcases hcl : mdClassify l with _ | ⟨lvl, c⟩ | c | ⟨d, c⟩ | c
    · -- blank line
      have he : effDepth l = 0 := by simp only [effDepth, hcl]
      simp only [mdStep, hcl]
      rw [maxUlFrom_closes, Nat.sub_self, ih 0, he]
    · -- heading
      have he : effDepth l = 0 := by simp only [effDepth, hcl]
      simp only [mdStep, hcl]
      rw [List.append_assoc, List.singleton_append, maxUlFrom_closes, Nat.sub_self,
        show maxUlFrom 0 (HtmlTok.hHead lvl (inlineFormat c) :: mdLoop 0 ls) =
          max 0 (maxUlFrom 0 (mdLoop 0 ls)) from rfl,
        ih 0, he]
      omega
    · -- stand-alone bold
      have he : effDepth l = 0 := by simp only [effDepth, hcl]
      simp only [mdStep, hcl]
      rw [List.append_assoc, List.singleton_append, maxUlFrom_closes, Nat.sub_self,
        show maxUlFrom 0 (HtmlTok.hBoldP (escapeHtml c) :: mdLoop 0 ls) =
          max 0 (maxUlFrom 0 (mdLoop 0 ls)) from rfl,
        ih 0, he]
      omega
    · -- bullet at depth d
      have he : effDepth l = d := by simp only [effDepth, hcl]
      rw [he]
      simp only [mdStep, hcl]
      by_cases h1 : cur < d
      · rw [if_pos h1, List.append_assoc, List.singleton_append]
        show maxUlFrom cur (List.replicate (d - cur - 1) .ulLiBare ++
          .ulLiC (inlineFormat c) :: mdLoop d ls) = _
        rw [maxUlFrom_opens, show cur + (d - cur - 1) + 1 = d from by omega, ih d]
        omega
      · by_cases h2 : d = cur
        · rw [if_neg h1, if_pos h2]
          show maxUlFrom cur ([HtmlTok.sib (inlineFormat c)] ++ mdLoop d ls) = _
          rw [List.singleton_append,
            show maxUlFrom cur (HtmlTok.sib (inlineFormat c) :: mdLoop d ls) =
              max cur (maxUlFrom cur (mdLoop d ls)) from rfl,
            h2, ih cur]
        · rw [if_neg h1, if_neg h2]
          show maxUlFrom cur ((List.replicate (cur - d) .closeLiUl ++
            [HtmlTok.sib (inlineFormat c)]) ++ mdLoop d ls) = _
          rw [List.append_assoc, List.singleton_append, maxUlFrom_closes,
            show cur - (cur - d) = d from by omega,
            show maxUlFrom d (HtmlTok.sib (inlineFormat c) :: mdLoop d ls) =
              max d (maxUlFrom d (mdLoop d ls)) from rfl,
            ih d]
          omega
    · -- fall-through paragraph
      have he : effDepth l = 0 := by simp only [effDepth, hcl]
      simp only [mdStep, hcl]
      rw [List.append_assoc, List.singleton_append, maxUlFrom_closes, Nat.sub_self,
        show maxUlFrom 0 (HtmlTok.hPara (inlineFormat c) :: mdLoop 0 ls) =
          max 0 (maxUlFrom 0 (mdLoop 0 ls)) from rfl,
        ih 0, he]
      omega

/-- The non-blank lines of a string: split on line feeds, empty pieces
dropped. -/
def fnb (s : List Char) : List (List Char) :=
  (splitNl s).filter (fun x => !x.isEmpty)

/-- The non-blank lines after the first piece. -/
def fnbT (s : List Char) : List (List Char) :=
  ((splitNl s).tail).filter (fun x => !x.isEmpty)

theorem splitNl_ne_nil : ∀ s : List Char, splitNl s ≠ []
  | [] => by simp [splitNl]
  | c :: rest => by
    simp only [splitNl]
    split
    · simp
    · split
      · simp
      · simp

theorem splitNl_cons_ne (c : Char) (s : List Char) (hc : c ≠ '\n') :
    splitNl (c :: s) = (c :: (splitNl s).headI) :: (splitNl s).tail := by
  rcases hs : splitNl s with _ | ⟨h, t⟩
  · exact absurd hs (splitNl_ne_nil s)
  · simp [splitNl, hc, hs]

theorem splitNl_replicate_nl : ∀ (m : Nat) (s : List Char),
    splitNl (List.replicate m '\n' ++ s) = List.replicate m [] ++ splitNl s := by
  intro m
  induction m with
  | zero => intro s; rfl
  | succ n ih =>
    intro s
    rw [List.replicate_succ, List.cons_append, List.replicate_succ, List.cons_append]
    show splitNl ('\n' :: (List.replicate n '\n' ++ s)) = _
    simp [splitNl, ih s]

theorem nlRun_eq_replicate (k : Nat) :
    nlRun k = List.replicate (if 3 ≤ k then 2 else k) '\n' := by
  unfold nlRun
  split <;> rfl

theorem filter_replicate_nil_append (m : Nat) (X : List (List Char)) :
    (List.replicate m ([] : List Char) ++ X).filter (fun x => !x.isEmpty) =
      X.filter (fun x => !x.isEmpty) := by
  induction m with
  | zero => rfl
  | succ n ih => rw [List.replicate_succ, List.cons_append, List.filter_cons_of_neg (by simp), ih]

theorem fnb_nlRun_append (k : Nat) (s : List Char) :
    fnb (nlRun k ++ s) = fnb s := by
  unfold fnb
  rw [nlRun_eq_replicate, splitNl_replicate_nl, filter_replicate_nil_append]

theorem headI_nlRun_append (k : Nat) (s : List Char) (hk : 1 ≤ k) :
    (splitNl (nlRun k ++ s)).headI = [] := by
  rw [nlRun_eq_replicate, splitNl_replicate_nl]
  rcases k with _ | n
  · omega
  · split
    · rfl
    · rw [List.replicate_succ]
      rfl

theorem fnbT_nlRun_append (k : Nat) (s : List Char) (hk : 1 ≤ k) :
    fnbT (nlRun k ++ s) = fnb s := by
  unfold fnbT fnb
  rw [nlRun_eq_replicate, splitNl_replicate_nl]
  have step : ∀ (m : Nat), 1 ≤ m →
      ((List.replicate m ([] : List Char) ++ splitNl s).tail).filter
        (fun x => !x.isEmpty) = (splitNl s).filter (fun x => !x.isEmpty) := by
    intro m hm
    rcases m with _ | n
    · omega
    · rw [List.replicate_succ, List.cons_append, List.tail_cons,
        filter_replicate_nil_append]
  split
  · exact step 2 (by omega)
  · exact step k hk

theorem fnb_cons_nl (s : List Char) : fnb ('\n' :: s) = fnb s := by
  unfold fnb
  show (([] : List Char) :: splitNl s).filter (fun x => !x.isEmpty) = _
  rw [List.filter_cons_of_neg (by simp)]

theorem fnbT_cons_nl (s : List Char) : fnbT ('\n' :: s) = fnb s := by
  unfold fnbT fnb
  rfl

theorem headI_cons_nl (s : List Char) : (splitNl ('\n' :: s)).headI = [] := rfl

theorem fnb_cons_ne (c : Char) (s : List Char) (hc : c ≠ '\n') :
    fnb (c :: s) = (c :: (splitNl s).headI) :: fnbT s := by
  unfold fnb fnbT
  rw [splitNl_cons_ne c s hc, List.filter_cons_of_pos (by simp)]

theorem fnbT_cons_ne (c : Char) (s : List Char) (hc : c ≠ '\n') :
    fnbT (c :: s) = fnbT s := by
  unfold fnbT
  rw [splitNl_cons_ne c s hc, List.tail_cons]

theorem headI_cons_ne (c : Char) (s : List Char) (hc : c ≠ '\n') :
    (splitNl (c :: s)).headI = c :: (splitNl s).headI := by
  rw [splitNl_cons_ne c s hc]
  rfl

theorem collapseGo_cons_nl (k : Nat) (t : List Char) :
    collapseGo k ('\n' :: t) = collapseGo (k + 1) t := by
  simp [collapseGo]

theorem collapseGo_cons_ne (k : Nat) (c : Char) (t : List Char) (hc : c ≠ '\n') :
    collapseGo k (c :: t) = nlRun k ++ c :: collapseGo 0 t := by
  simp [collapseGo, hc]

/-- The blank-line collapse keeps precisely the non-blank lines: it only
shortens runs of line feeds, never touches other characters, and the
count of pending line feeds `k` contributes only blank pieces. -/
theorem collapse_fnb : ∀ (l : List Char) (k : Nat),
    fnb (collapseGo k l) = fnb l ∧
    (splitNl (collapseGo 0 l)).headI = (splitNl l).headI ∧
    fnbT (collapseGo 0 l) = fnbT l ∧
    (1 ≤ k → (splitNl (collapseGo k l)).headI = [] ∧
      fnbT (collapseGo k l) = fnb l) := by
  intro l
  induction l with
  | nil =>
    intro k
    refine ⟨?_, rfl, rfl, fun hk => ⟨?_, ?_⟩⟩
    · show fnb (nlRun k) = fnb []
      have := fnb_nlRun_append k []
      rwa [List.append_nil] at this
    · show (splitNl (nlRun k)).headI = []
      have := headI_nlRun_append k [] hk
      rwa [List.append_nil] at this
    · show fnbT (nlRun k) = fnb []
      have := fnbT_nlRun_append k [] hk
      rwa [List.append_nil] at this
  | cons c t ih =>
    intro k
    by_cases hc : c = '\n'
    · subst hc
      rw [collapseGo_cons_nl, collapseGo_cons_nl]
      refine ⟨?_, ?_, ?_, fun _ => ⟨?_, ?_⟩⟩
      · rw [(ih (k + 1)).1, fnb_cons_nl]
      · rw [((ih 1).2.2.2 (by omega)).1, headI_cons_nl]
      · rw [((ih 1).2.2.2 (by omega)).2, fnbT_cons_nl]
      · exact ((ih (k + 1)).2.2.2 (by omega)).1
      · rw [((ih (k + 1)).2.2.2 (by omega)).2, fnb_cons_nl]
    · rw [collapseGo_cons_ne k c t hc, collapseGo_cons_ne 0 c t hc,
        show nlRun 0 = ([] : List Char) from rfl, List.nil_append]
      have hx : fnb (c :: collapseGo 0 t) = fnb (c :: t) := by
        rw [fnb_cons_ne c _ hc, fnb_cons_ne c t hc, (ih 0).2.1, (ih 0).2.2.1]
      refine ⟨?_, ?_, ?_, fun hk => ⟨?_, ?_⟩⟩
      · rw [fnb_nlRun_append, hx]
      · rw [headI_cons_ne c _ hc, headI_cons_ne c t hc, (ih 0).2.1]
      · rw [fnbT_cons_ne c _ hc, fnbT_cons_ne c t hc, (ih 0).2.2.1]
      · exact headI_nlRun_append k _ hk
      · rw [fnbT_nlRun_append k _ hk, hx]

/-- The non-blank lines survive the blank-line collapse unchanged. -/
theorem collapseRuns_fnb (s : List Char) : fnb (collapseRuns s) = fnb s :=
  (collapse_fnb s 0).1

theorem splitNl_of_no_nl : ∀ (a : List Char), '\n' ∉ a → splitNl a = [a]
  | [], _ => rfl
  | c :: t, h => by
    have hc : c ≠ '\n' := fun hh => h (by simp [hh])
    have ht := splitNl_of_no_nl t (fun hh => h (by simp [hh]))
    simp [splitNl, hc, ht]

theorem splitNl_append_nl (a r : List Char) (h : '\n' ∉ a) :
    splitNl (a ++ '\n' :: r) = a :: splitNl r := by
  induction a with
  | nil => simp [splitNl]
  | cons c t ih =>
    have hc : c ≠ '\n' := fun hh => h (by simp [hh])
    have ht := ih (fun hh => h (by simp [hh]))
    rw [List.cons_append]
    simp [splitNl, hc, ht]

theorem splitNl_joinNl : ∀ (L : List (List Char)), L ≠ [] →
    (∀ l ∈ L, '\n' ∉ l) → splitNl (joinNl L) = L
  | [], h, _ => absurd rfl h
  | [l], _, hnl => by
    rw [show joinNl [l] = l from rfl]
    exact splitNl_of_no_nl l (hnl l (by simp))
  | l :: l' :: ls, _, hnl => by
    rw [show joinNl (l :: l' :: ls) = l ++ '\n' :: joinNl (l' :: ls) from rfl,
      splitNl_append_nl l _ (hnl l (by simp)),
      splitNl_joinNl (l' :: ls) (by simp) (fun x hx => hnl x (by simp [hx]))]

theorem splitNl_no_nl : ∀ (s l : List Char), l ∈ splitNl s → '\n' ∉ l := by
  intro s
  induction s with
  | nil =>
    intro l hl
    simp [splitNl] at hl
    simp [hl]
  | cons c t ih =>
    intro l hl
    by_cases hc : c = '\n'
    · subst hc
      rw [show splitNl ('\n' :: t) = [] :: splitNl t from by simp [splitNl]] at hl
      rcases List.mem_cons.mp hl with rfl | h
      · simp
      · exact ih l h
    · rw [splitNl_cons_ne c t hc] at hl
      rcases List.mem_cons.mp hl with rfl | h
      · intro hmem
        rcases List.mem_cons.mp hmem with rfl | h2
        · exact hc rfl
        · have hh : (splitNl t).headI ∈ splitNl t := by
            rcases hs : splitNl t with _ | ⟨x, xs⟩
            · exact absurd hs (splitNl_ne_nil t)
            · simp
          exact ih _ hh h2
      · have hh : l ∈ splitNl t := by
          rcases hs : splitNl t with _ | ⟨x, xs⟩
          · exact absurd hs (splitNl_ne_nil t)
          · rw [hs] at h
            simp only [List.tail_cons] at h
            simp [hs, h]
        exact ih l hh

theorem mem_pyRstrip (l : List Char) (c : Char) (h : c ∈ pyRstrip l) : c ∈ l := by
  unfold pyRstrip at h
  rw [List.mem_reverse] at h
  have := List.Sublist.mem h (List.dropWhile_sublist pyIsSpace)
  rwa [List.mem_reverse] at this

theorem mem_stripTabs (l : List Char) (c : Char) (h : c ∈ stripTabs l) : c ∈ l :=
  List.Sublist.mem h (List.dropWhile_sublist _)

theorem mdOfLine_eq (line : List Char) :
    mdOfLine line =
      if pyRstrip line = [] then [[]]
      else if tabCount line = 0 then
        [("# ".toList) ++ stripTabs (pyRstrip line)]
      else if tabCount line = 1 then
        [[], ("**".toList) ++ stripTabs (pyRstrip line) ++ ("**".toList)]
      else
        [List.replicate (2 * (tabCount line - 2)) ' ' ++ ("* ".toList) ++
          stripTabs (pyRstrip line)] := rfl

theorem maxList_cons (x : Nat) (xs : List Nat) :
    maxList (x :: xs) = max x (maxList xs) := rfl

theorem mdOfLine_no_nl (line : List Char) (h : '\n' ∉ line) :
    ∀ m ∈ mdOfLine line, '\n' ∉ m := by
  intro m hm
  have hcontent : '\n' ∉ stripTabs (pyRstrip line) := fun hc =>
    h (mem_pyRstrip line '\n' (mem_stripTabs _ '\n' hc))
  rw [mdOfLine_eq] at hm
  split at hm
  · rw [List.mem_singleton] at hm
    subst hm
    simp
  · split at hm
    · rw [List.mem_singleton] at hm
      subst hm
      intro hx
      rcases List.mem_append.mp hx with h1 | h1
      · exact absurd h1 (by decide)
      · exact hcontent h1
    · split at hm
      · rcases List.mem_cons.mp hm with rfl | hm2
        · simp
        · rw [List.mem_singleton] at hm2
          subst hm2
          intro hx
          rcases List.mem_append.mp hx with h1 | h1
          · rcases List.mem_append.mp h1 with h2 | h2
            · exact absurd h2 (by decide)
            · exact hcontent h2
          · exact absurd h1 (by decide)
      · rw [List.mem_singleton] at hm
        subst hm
        intro hx
        rcases List.mem_append.mp hx with h1 | h1
        · rcases List.mem_append.mp h1 with h2 | h2
          · exact absurd (List.eq_of_mem_replicate h2) (by decide)
          · exact absurd h2 (by decide)
        · exact hcontent h1

theorem mdOfLine_ne_nil (line : List Char) : mdOfLine line ≠ [] := by
  rw [mdOfLine_eq]
  split
  · simp
  · split
    · simp
    · split
      · simp
      · simp

theorem cmap_mdOfLine_ne_nil (L : List (List Char)) (h : L ≠ []) :
    cmap mdOfLine L ≠ [] := by
  rcases L with _ | ⟨l, ls⟩
  · exact absurd rfl h
  · show mdOfLine l ++ cmap mdOfLine ls ≠ []
    intro hx
    exact mdOfLine_ne_nil l (List.append_eq_nil.mp hx).1

theorem maxList_append (a b : List Nat) :
    maxList (a ++ b) = max (maxList a) (maxList b) := by
  induction a with
  | nil => simp [maxList]
  | cons x xs ih =>
    show maxList (x :: (xs ++ b)) = _
    rw [show maxList (x :: (xs ++ b)) = max x (maxList (xs ++ b)) from rfl, ih,
      show maxList (x :: xs) = max x (maxList xs) from rfl, max_assoc]

theorem maxList_cmap_map {α : Type} (f : α → List (List Char))
    (g : List Char → Nat) : ∀ (L : List α),
    maxList ((cmap f L).map g) = maxList (L.map (fun a => maxList ((f a).map g))) := by
  intro L
  induction L with
  | nil => rfl
  | cons a L ih =>
    show maxList (((f a) ++ cmap f L).map g) = _
    rw [List.map_append, maxList_append, ih]
    rfl

theorem maxList_filter_eff (M : List (List Char)) :
    maxList ((M.filter (fun x => !x.isEmpty)).map effDepth) =
      maxList (M.map effDepth) := by
  induction M with
  | nil => rfl
  | cons a M ih =>
    by_cases ha : a = []
    · subst ha
      rw [List.filter_cons_of_neg (by simp), ih, List.map_cons, maxList_cons,
        show effDepth [] = 0 from rfl]
      omega
    · rw [List.filter_cons_of_pos (by simpa using ha), List.map_cons, List.map_cons,
        maxList_cons, maxList_cons, ih]

theorem head_dropWhile_not {α : Type} (p : α → Bool) :
    ∀ (l : List α) (c : α), (l.dropWhile p).head? = some c → p c = false := by
  intro l
  induction l with
  | nil => intro c hc; simp [List.dropWhile] at hc
  | cons a t ih =>
    intro c hc
    by_cases ha : p a
    · rw [List.dropWhile_cons_of_pos ha] at hc
      exact ih c hc
    · rw [List.dropWhile_cons_of_neg ha] at hc
      simp at hc
      subst hc
      simpa using ha

theorem getLast_dropWhile {α : Type} (p : α → Bool) :
    ∀ (l : List α), l.dropWhile p ≠ [] →
      (l.dropWhile p).getLast? = l.getLast? := by
  intro l
  induction l with
  | nil => intro h; simp [List.dropWhile] at h
  | cons a t ih =>
    intro h
    by_cases ha : p a
    · rw [List.dropWhile_cons_of_pos ha] at h ⊢
      rw [ih h, List.getLast?_cons]
      rcases ht : t.getLast? with _ | c
      · exfalso
        rcases t with _ | ⟨x, xs⟩
        · exact h rfl
        · rw [List.getLast?_cons] at ht
          simp at ht
      · simp [ht]
    · rw [List.dropWhile_cons_of_neg ha]

theorem dropWhile_ne_nil_of_last {α : Type} (p : α → Bool) (l : List α) (c : α)
    (hl : l.getLast? = some c) (hc : p c = false) : l.dropWhile p ≠ [] := by
  intro hnil
  rw [List.dropWhile_eq_nil_iff] at hnil
  have := hnil c (List.mem_of_mem_getLast? hl)
  rw [this] at hc
  exact absurd hc (by simp)

theorem pyRstrip_last (l : List Char) (h : pyRstrip l ≠ []) :
    ∃ c, (pyRstrip l).getLast? = some c ∧ pyIsSpace c = false := by
  have hne : l.reverse.dropWhile pyIsSpace ≠ [] := by
    intro hx
    exact h (by simp [pyRstrip, hx])
  rcases hh : (l.reverse.dropWhile pyIsSpace).head? with _ | c
  · rcases hd : l.reverse.dropWhile pyIsSpace with _ | ⟨x, xs⟩
    · exact absurd hd hne
    · rw [hd] at hh
      simp at hh
  · refine ⟨c, ?_, head_dropWhile_not pyIsSpace l.reverse c hh⟩
    rw [pyRstrip, List.getLast?_reverse]
    exact hh

theorem pyRstrip_of_last (l : List Char) (c : Char)
    (hl : l.getLast? = some c) (hc : pyIsSpace c = false) : pyRstrip l = l := by
  unfold pyRstrip
  rcases hrev : l.reverse with _ | ⟨x, xs⟩
  · rw [List.reverse_eq_nil_iff] at hrev
    simp [hrev]
  · have hx : x = c := by
      have := List.head?_reverse l
      rw [hrev, hl] at this
      simpa using this
    subst hx
    rw [List.dropWhile_cons_of_neg (by simp [hc]), ← hrev, List.reverse_reverse]

theorem takeWhile_sp_replicate (n : Nat) (c : Char) (r : List Char)
    (hc : pyIsSpace c = false) :
    (List.replicate n ' ' ++ c :: r).takeWhile pyIsSpace = List.replicate n ' ' := by
  induction n with
  | zero => simpa [List.takeWhile_cons_of_neg] using hc
  | succ m ih =>
    rw [List.replicate_succ, List.cons_append,
      List.takeWhile_cons_of_pos (by decide), ih]

theorem dropWhile_sp_replicate (n : Nat) (c : Char) (r : List Char)
    (hc : pyIsSpace c = false) :
    (List.replicate n ' ' ++ c :: r).dropWhile pyIsSpace = c :: r := by
  induction n with
  | zero => simpa [List.dropWhile_cons_of_neg] using hc
  | succ m ih =>
    rw [List.replicate_succ, List.cons_append,
      List.dropWhile_cons_of_pos (by decide), ih]

theorem mdClassify_eq (line : List Char) :
    mdClassify line =
      if pyStrip line = [] then .blank
      else
        match headingMatch (pyStrip line) with
        | some (lvl, c) => .heading lvl c
        | none =>
          match boldMatch (pyStrip line) with
          | some c => .boldp c
          | none =>
            match bulletMatch line with
            | some (ind, c) => .bullet (ind / 2 + 1) c
            | none => .para (pyStrip line) := rfl

theorem headingMatch_eq (s : List Char) :
    headingMatch s =
      if (s.takeWhile (fun c => c == '#')).length = 0 ∨
          6 < (s.takeWhile (fun c => c == '#')).length then none
      else
        if (s.drop (s.takeWhile (fun c => c == '#')).length).takeWhile pyIsSpace = []
        then none
        else
          if (s.drop (s.takeWhile (fun c => c == '#')).length).dropWhile pyIsSpace ≠ []
          then some ((s.takeWhile (fun c => c == '#')).length,
            (s.drop (s.takeWhile (fun c => c == '#')).length).dropWhile pyIsSpace)
          else
            if 2 ≤ ((s.drop (s.takeWhile (fun c => c == '#')).length).takeWhile
                pyIsSpace).length
            then some ((s.takeWhile (fun c => c == '#')).length,
              [((s.drop (s.takeWhile (fun c => c == '#')).length).takeWhile
                pyIsSpace).getLast!])
            else none := rfl

theorem bulletMatch_eq (line : List Char) :
    bulletMatch line =
      match line.dropWhile pyIsSpace with
      | [] => none
      | c :: r2 =>
        if c = '*' then
          if r2.takeWhile pyIsSpace = [] then none
          else
            if r2.dropWhile pyIsSpace ≠ [] then
              some ((line.takeWhile pyIsSpace).length, r2.dropWhile pyIsSpace)
            else
              if 2 ≤ (r2.takeWhile pyIsSpace).length then
                some ((line.takeWhile pyIsSpace).length,
                  [(r2.takeWhile pyIsSpace).getLast!])
              else none
        else none := rfl

/-- A markdown heading line `#  + content` (non-empty content ending in a
non-whitespace character) is classified as a heading; its list-depth
contribution is 0. -/
theorem effDepth_mdHeading (content : List Char) (c : Char)
    (hlast : content.getLast? = some c) (hc : pyIsSpace c = false) :
    effDepth (("# ".toList) ++ content) = 0 := by
  have hsh : ("# ".toList) ++ content = '#' :: ' ' :: content := rfl
  rw [hsh]
  have hlast2 : ('#' :: ' ' :: content).getLast? = some c := by
    rw [show '#' :: ' ' :: content = ['#', ' '] ++ content from rfl,
      List.getLast?_append, hlast]
    rfl
  have hstrip : pyStrip ('#' :: ' ' :: content) = '#' :: ' ' :: content := by
    unfold pyStrip
    rw [show pyLstrip ('#' :: ' ' :: content) = '#' :: ' ' :: content from
      List.dropWhile_cons_of_neg (by decide)]
    exact pyRstrip_of_last _ c hlast2 hc
  have htw : ('#' :: ' ' :: content).takeWhile (fun x => x == '#') = ['#'] := by
    rw [List.takeWhile_cons_of_pos (by decide), List.takeWhile_cons_of_neg (by decide)]
  have hlastsp : (' ' :: content).getLast? = some c := by
    rw [show ' ' :: content = [' '] ++ content from rfl, List.getLast?_append, hlast]
    rfl
  have hdw : (' ' :: content).dropWhile pyIsSpace ≠ [] :=
    dropWhile_ne_nil_of_last pyIsSpace _ c hlastsp hc
  have hmatch : headingMatch ('#' :: ' ' :: content) =
      some (1, (' ' :: content).dropWhile pyIsSpace) := by
    rw [headingMatch_eq, htw]
    rw [show (['#'] : List Char).length = 1 from rfl]
    rw [if_neg (by omega)]
    rw [show ('#' :: ' ' :: content).drop 1 = ' ' :: content from rfl]
    rw [List.takeWhile_cons_of_pos (show pyIsSpace ' ' = true from by decide)]
    rw [if_neg (by simp)]
    rw [if_pos hdw]
  unfold effDepth
  rw [mdClassify_eq, hstrip, if_neg (by simp), hmatch]

/-- A markdown stand-alone bold line `**content**` is classified as a
bold paragraph; its list-depth contribution is 0. -/
theorem effDepth_mdBold (content : List Char) (hne : content ≠ []) :
    effDepth (("**".toList) ++ content ++ ("**".toList)) = 0 := by
  have hsh : ("**".toList) ++ content ++ ("**".toList) =
      '*' :: '*' :: (content ++ ['*', '*']) := by
    rw [List.append_assoc]
    rfl
  rw [hsh]
  have hlast2 : ('*' :: '*' :: (content ++ ['*', '*'])).getLast? = some '*' := by
    rw [show '*' :: '*' :: (content ++ ['*', '*']) =
      ('*' :: '*' :: content) ++ ['*', '*'] from by simp, List.getLast?_append]
    rfl
  have hstrip : pyStrip ('*' :: '*' :: (content ++ ['*', '*'])) =
      '*' :: '*' :: (content ++ ['*', '*']) := by
    unfold pyStrip
    rw [show pyLstrip ('*' :: '*' :: (content ++ ['*', '*'])) =
      '*' :: '*' :: (content ++ ['*', '*']) from
      List.dropWhile_cons_of_neg (by decide)]
    exact pyRstrip_of_last _ '*' hlast2 (by decide)
  have hhm : headingMatch ('*' :: '*' :: (content ++ ['*', '*'])) = none := by
    rw [headingMatch_eq, List.takeWhile_cons_of_neg (by decide)]
    simp
  have hlen : ('*' :: '*' :: (content ++ ['*', '*'])).length = content.length + 4 := by
    simp
  have hbm : boldMatch ('*' :: '*' :: (content ++ ['*', '*'])) =
      some ((('*' :: '*' :: (content ++ ['*', '*'])).drop 2).take
        (('*' :: '*' :: (content ++ ['*', '*'])).length - 4)) := by
    unfold boldMatch
    rw [if_pos]
    refine ⟨?_, rfl, ?_⟩
    · rw [hlen]
      have : 1 ≤ content.length := List.length_pos.mpr hne
      omega
    · rw [hlen, show content.length + 4 - 2 = content.length + 1 + 1 from by omega,
        List.drop_succ_cons, List.drop_succ_cons,
        show content.length = content.length from rfl]
      exact List.drop_left content ['*', '*']
  unfold effDepth
  rw [mdClassify_eq, hstrip, if_neg (by simp), hhm, hbm]

/-- A markdown bullet line, spaces then `* ` then content ending in a
non-whitespace character, is classified as a bullet of depth
`spaces / 2 + 1`. -/
theorem effDepth_mdBullet (n : Nat) (content : List Char) (c : Char)
    (hlast : content.getLast? = some c) (hc : pyIsSpace c = false) :
    effDepth (List.replicate n ' ' ++ ("* ".toList) ++ content) = n / 2 + 1 := by
  have hsh : List.replicate n ' ' ++ ("* ".toList) ++ content =
      List.replicate n ' ' ++ ('*' :: ' ' :: content) := by
    rw [List.append_assoc]
    rfl
  rw [hsh]
  have hlastsp : (' ' :: content).getLast? = some c := by
    rw [show ' ' :: content = [' '] ++ content from rfl, List.getLast?_append, hlast]
    rfl
  have hlast2 : ('*' :: ' ' :: content).getLast? = some c := by
    rw [show '*' :: ' ' :: content = ['*'] ++ (' ' :: content) from rfl,
      List.getLast?_append, hlastsp]
    rfl
  have hls : pyLstrip (List.replicate n ' ' ++ ('*' :: ' ' :: content)) =
      '*' :: ' ' :: content := dropWhile_sp_replicate n '*' (' ' :: content) (by decide)
  have hstrip : pyStrip (List.replicate n ' ' ++ ('*' :: ' ' :: content)) =
      '*' :: ' ' :: content := by
    unfold pyStrip
    rw [hls]
    exact pyRstrip_of_last _ c hlast2 hc
  have hhm : headingMatch ('*' :: ' ' :: content) = none := by
    rw [headingMatch_eq, List.takeWhile_cons_of_neg (by decide)]
    simp
  have hbm : boldMatch ('*' :: ' ' :: content) = none := by
    unfold boldMatch
    rw [if_neg]
    intro hcond
    have := hcond.2.1
    simp at this
  have hdw : (' ' :: content).dropWhile pyIsSpace ≠ [] :=
    dropWhile_ne_nil_of_last pyIsSpace _ c hlastsp hc
  have hbull : bulletMatch (List.replicate n ' ' ++ ('*' :: ' ' :: content)) =
      some (n, (' ' :: content).dropWhile pyIsSpace) := by
    rw [bulletMatch_eq, dropWhile_sp_replicate n '*' (' ' :: content) (by decide)]
    rw [takeWhile_sp_replicate n '*' (' ' :: content) (by decide)]
    simp only [List.length_replicate, if_true]
    rw [if_neg (by rw [List.takeWhile_cons_of_pos (by decide)]; simp),
      if_pos hdw]
  unfold effDepth
  rw [mdClassify_eq, hstrip, if_neg (by simp), hhm, hbm, hbull]

/-- Non-blank lines of the raw input with at least two leading tabs: the
bullet lines of the outline. -/
def isRawBullet (l : List Char) : Bool :=
  !(pyRstrip l).isEmpty && decide (2 ≤ tabCount l)

theorem content_facts (l : List Char) (h : pyRstrip l ≠ []) :
    stripTabs (pyRstrip l) ≠ [] ∧
      ∃ c, (stripTabs (pyRstrip l)).getLast? = some c ∧ pyIsSpace c = false := by
  obtain ⟨c, hlast, hcs⟩ := pyRstrip_last l h
  have htab : (fun x => x == '\t') c = false := by
    by_cases hct : c = '\t'
    · subst hct
      exact absurd hcs (by decide)
    · simp [hct]
  have hne : stripTabs (pyRstrip l) ≠ [] :=
    dropWhile_ne_nil_of_last _ _ c hlast htab
  refine ⟨hne, c, ?_, hcs⟩
  show (List.dropWhile (fun x => x == '\t') (pyRstrip l)).getLast? = some c
  rw [getLast_dropWhile _ _ hne]
  exact hlast

/-- The depth contribution of the markdown lines produced for one raw
line: `tab_count − 1` for a bullet line, 0 for everything else. -/
theorem mdOfLine_effDepth (l : List Char) :
    maxList ((mdOfLine l).map effDepth) =
      if isRawBullet l then tabCount l - 1 else 0 := by
  rw [mdOfLine_eq]
  by_cases h1 : pyRstrip l = []
  · rw [if_pos h1, if_neg (by simp [isRawBullet, h1])]
    decide
  · obtain ⟨hne, c, hlast, hcs⟩ := content_facts l h1
    by_cases h2 : tabCount l = 0
    · rw [if_neg h1, if_pos h2, if_neg (by simp [isRawBullet, h2])]
      rw [List.map_cons, List.map_nil, maxList_cons,
        effDepth_mdHeading _ c hlast hcs]
      rfl
    · by_cases h3 : tabCount l = 1
      · rw [if_neg h1, if_neg h2, if_pos h3, if_neg (by simp [isRawBullet, h3])]
        rw [List.map_cons, List.map_cons, List.map_nil, maxList_cons, maxList_cons,
          effDepth_mdBold _ hne, show effDepth [] = 0 from rfl]
        rfl
      · have h4 : 2 ≤ tabCount l := by omega
        rw [if_neg h1, if_neg h2, if_neg h3,
          if_pos (by simp [isRawBullet, h1, h4])]
        rw [List.map_cons, List.map_nil, maxList_cons,
          effDepth_mdBullet _ _ c hlast hcs,
          Nat.mul_div_cancel_left _ (show 0 < 2 by omega)]
        show max (tabCount l - 2 + 1) 0 = tabCount l - 1
        omega

theorem maxList_bridge (p : List Char → Bool) (f : List Char → Nat) :
    ∀ L : List (List Char),
    maxList (L.map (fun l => if p l then f l - 1 else 0)) =
      maxList ((L.filter p).map f) - 1 := by
  intro L
  induction L with
  | nil => rfl
  | cons a L ih =>
    by_cases hp : p a
    · rw [List.map_cons, maxList_cons, if_pos hp, List.filter_cons_of_pos hp,
        List.map_cons, maxList_cons, ih]
      omega
    · rw [List.map_cons, maxList_cons, if_neg hp, List.filter_cons_of_neg hp, ih]
      omega

theorem mem_cmap {α β : Type} (f : α → List β) :
    ∀ (L : List α) (b : β), b ∈ cmap f L → ∃ a ∈ L, b ∈ f a := by
  intro L
  induction L with
  | nil => intro b hb; simp [cmap] at hb
  | cons a L ih =>
    intro b hb
    rcases List.mem_append.mp hb with h | h
    · exact ⟨a, by simp, h⟩
    · obtain ⟨a', ha', hba'⟩ := ih b h
      exact ⟨a', by simp [ha'], hba'⟩

/-- C6.  Composed depth preservation: the deepest list element emitted by
`markdown_to_html` on the output of `raw_to_markdown` sits at depth
`max(bullet tab_count) − 1` over the bullet lines of the raw input, and
at depth 0 (no list at all) when the input has no bullet line (in `Nat`,
`maxList [] - 1 = 0`, so the right-hand side covers both readings). -/
theorem c6_depth_preservation (text : List Char) :
    maxUl (mdParts (raw_to_markdown text)) =
      maxList (((splitNl text).filter isRawBullet).map tabCount) - 1 := by
  have hnl : ∀ m ∈ cmap mdOfLine (splitNl text), '\n' ∉ m := by
    intro m hm
    obtain ⟨a, ha, hma⟩ := mem_cmap mdOfLine (splitNl text) m hm
    exact mdOfLine_no_nl a (splitNl_no_nl text a ha) m hma
  have hMD : splitNl (joinNl (cmap mdOfLine (splitNl text))) =
      cmap mdOfLine (splitNl text) :=
    splitNl_joinNl _ (cmap_mdOfLine_ne_nil _ (splitNl_ne_nil text)) hnl
  have step1 : maxUl (mdParts (raw_to_markdown text)) =
      maxList ((splitNl (collapseRuns (joinNl
        (cmap mdOfLine (splitNl text))))).map effDepth) := by
    show maxUlFrom 0 (mdLoop 0 _) = _
    rw [maxUlFrom_mdLoop]
    exact Nat.zero_max _
  rw [step1, ← maxList_filter_eff,
    show (splitNl (collapseRuns (joinNl (cmap mdOfLine
        (splitNl text))))).filter (fun x => !x.isEmpty) =
      fnb (collapseRuns (joinNl (cmap mdOfLine (splitNl text)))) from rfl,
    collapseRuns_fnb,
    show fnb (joinNl (cmap mdOfLine (splitNl text))) =
      (splitNl (joinNl (cmap mdOfLine (splitNl text)))).filter
        (fun x => !x.isEmpty) from rfl,
    hMD, maxList_filter_eff, maxList_cmap_map]
  rw [List.map_congr_left (fun l _ => mdOfLine_effDepth l)]
  exact maxList_bridge isRawBullet tabCount (splitNl text)
